import Mathlib

/-!
Verification of the Shortify URL-shortening service (src/api/shorten.py).

The development shallowly embeds the Python source:
* `encode_base62` is the Base62 slug codec (src/api/shorten.py, lines 64-85);
  its `while num > 0` loop is embedded as the fuel-structural `encodeLoopF`
  (fuel `num` always suffices since `num / 62 < num` for `num > 0`, and a
  negative `num` never enters the loop, which `Int.toNat` clamping captures).
* the Redis store is embedded as an explicit state (`Store`): an association
  list for GET/SET plus the counter held under the fixed key
  `"shortify:counter"`; the counter is carried as a dedicated field, which is
  sound because that key never collides with the slug/url key families
  (proved below).
* `shorten_url` is the POST /api/shorten handler (lines 118-149); Python's
  truthiness test `if existing_slug:` is embedded as the explicit check that
  the looked-up slug is nonempty.
* a second embedding `shorten_urlF` makes the fallibility of each Redis call
  explicit (`Except`), mirroring that the Python handler installs no
  exception handler: every store error propagates unchanged.
-/

/-- Base62 character set for slug generation (src/api/shorten.py line 37). -/
def BASE62_CHARS : String :=
  "0123456789ABCDEFGHIJKLMNOPQRSTUVWXYZabcdefghijklmnopqrstuvwxyz"

/-- `BASE62_CHARS[i]`: indexing into the alphabet, as Python string indexing.
All call sites use `i = num % 62 < 62`, so the default is never reached. -/
def base62Char (i : Nat) : Char :=
  BASE62_CHARS.data.getD i '0'

/-- The `while num > 0` loop body of `encode_base62`, with explicit fuel so the
recursion is structural: `result.append(BASE62_CHARS[num % 62]); num //= 62`,
producing the least-significant digit first. -/
def encodeLoopF : Nat → Nat → List Char
  | 0, _ => []
  | fuel + 1, num =>
    if num = 0 then []
    else base62Char (num % 62) :: encodeLoopF fuel (num / 62)

/-- The digit-accumulation loop of `encode_base62`: `num` itself is enough
fuel because the loop variable strictly decreases. -/
def encodeLoop (num : Nat) : List Char :=
  encodeLoopF num num

/-- `encode_base62` (src/api/shorten.py lines 64-85). For `num == 0` it
returns `BASE62_CHARS[0]`; otherwise it joins the reversed digit list. For a
negative `num` the Python loop guard `num > 0` fails immediately and the
function returns the empty string; `Int.toNat` sends negatives to `0`, whose
loop is empty, giving the same result. -/
def encode_base62 (num : Int) : String :=
  if num = 0 then String.singleton (base62Char 0)
  else String.mk (encodeLoop num.toNat).reverse

/-- Modelled from the spec: the position of a character in the 62-character
alphabet, `none` when the character is outside it. The repository contains no
`decode`; the spec defines it as the exact inverse of `encode`, failing with
`InvalidSlug` on an empty string or a character outside the alphabet. -/
def charVal (c : Char) : Option Nat :=
  List.findIdx? (fun d => d = c) BASE62_CHARS.data

/-- Modelled from the spec: positional accumulation of a Base62 string,
most-significant digit first, rejecting characters outside the alphabet. -/
def decodeAux : List Char → Nat → Except String Nat
  | [], acc => Except.ok acc
  | c :: cs, acc =>
    match charVal c with
    | none => Except.error "InvalidSlug"
    | some v => decodeAux cs (acc * 62 + v)

/-- Modelled from the spec: `decode(s) -> integer`, the exact inverse of
`encode`; fails with `InvalidSlug` if `s` is empty or contains any character
outside the 62-character alphabet. Not present in src/. -/
def decode (s : String) : Except String Nat :=
  if s.data.isEmpty then Except.error "InvalidSlug"
  else decodeAux s.data 0

instance {ε α : Type} [DecidableEq ε] [DecidableEq α] : DecidableEq (Except ε α) :=
  fun x y =>
    match x, y with
    | Except.ok a, Except.ok b => decidable_of_iff (a = b) (by simp)
    | Except.error a, Except.error b => decidable_of_iff (a = b) (by simp)
    | Except.ok _, Except.error _ => isFalse (by simp)
    | Except.error _, Except.ok _ => isFalse (by simp)

/-- Response body with shortened URL details (src/api/shorten.py lines 51-56). -/
structure ShortenResponse where
  short_url : String
  slug : String
  original_url : String
deriving DecidableEq, Repr

/-- The Redis state visible to the handler: the value of the fixed counter key
`"shortify:counter"` and the string key-value pairs, most recent first. -/
structure Store where
  counter : Nat
  kv : List (String × String)
deriving DecidableEq, Repr

/-- Redis GET on the key-value pairs: the most recently SET value for the key. -/
def kvGet : List (String × String) → String → Option String
  | [], _ => none
  | (k', v) :: rest, k => if k' = k then some v else kvGet rest k

/-- Redis SET: record the new binding; `kvGet` sees the newest one. -/
def redisSet (st : Store) (k v : String) : Store :=
  { st with kv := (k, v) :: st.kv }

/-- The fixed counter key used by `get_next_counter` (line 95). -/
def counterKey : String := "shortify:counter"

/-- The forward-mapping key `f"shortify:slug:{slug}"` (line 145). -/
def slugKey (s : String) : String := "shortify:slug:" ++ s

/-- The reverse-mapping key `f"shortify:url:{original_url}"` (lines 133, 147). -/
def urlKey (u : String) : String := "shortify:url:" ++ u

/-- `get_next_counter` (src/api/shorten.py lines 88-96): Redis INCR on the
fixed key `"shortify:counter"`, returning the post-increment value. -/
def get_next_counter (st : Store) : Nat × Store :=
  (st.counter + 1, { st with counter := st.counter + 1 })

/-- The miss path of `shorten_url` (lines 139-149): allocate a counter value,
encode it, persist forward and reverse mappings, respond with the new slug. -/
def mintNew (st : Store) (original_url : String) : ShortenResponse × Store :=
  let p := get_next_counter st
  let slug := encode_base62 (p.1 : Int)
  let st2 := redisSet p.2 (slugKey slug) original_url
  let st3 := redisSet st2 (urlKey original_url) slug
  (⟨"/" ++ slug, slug, original_url⟩, st3)

/-- `shorten_url` (src/api/shorten.py lines 118-149). Python's
`if existing_slug:` is truthy only for a present, nonempty slug; `None` and
`""` both fall through to minting a new slug. -/
def shorten_url (st : Store) (original_url : String) : ShortenResponse × Store :=
  match kvGet st.kv (urlKey original_url) with
  | some existing_slug =>
    if existing_slug = "" then mintNew st original_url
    else (⟨"/" ++ existing_slug, existing_slug, original_url⟩, st)
  | none => mintNew st original_url

/-- `l₁` is an initial segment of `l₂` (used to state key namespacing). -/
def leads : List Char → List Char → Bool
  | [], _ => true
  | _ :: _, [] => false
  | c :: cs, d :: ds => c = d && leads cs ds

/-- Modelled from the spec: FastAPI/pydantic validates the request body field
`url: HttpUrl` (src/api/shorten.py line 48) before the handler body runs —
"reject malformed or non-http(s) URLs with a client error before any store
access". The validator is external library code not in src/; it is embedded
as a well-formedness check that the string is an absolute http/https URL with
a nonempty remainder. -/
def is_wellformed_http_url (u : String) : Bool :=
  (leads "http://".data u.data && decide (7 < u.data.length)) ||
  (leads "https://".data u.data && decide (8 < u.data.length))

/-- The request boundary of POST /api/shorten: schema validation happens
before the handler, so an invalid URL is rejected with a client error and the
store is never touched. -/
def handle_shorten (st : Store) (raw_url : String) :
    Except String ShortenResponse × Store :=
  if is_wellformed_http_url raw_url then
    let r := shorten_url st raw_url
    (Except.ok r.1, r.2)
  else (Except.error "InvalidInput", st)

/-- The Redis client with each operation's outcome made explicit: any of
INCR/GET/SET may fail, and the Python handler installs no handler for such a
failure. -/
structure RedisF where
  incrR : Except String Nat
  getR : String → Except String (Option String)
  setR : String → String → Except String Unit

/-- The miss path of `shorten_url` with fallible store calls: each Redis
exception propagates unchanged, aborting the request. -/
def mintNewF (r : RedisF) (original_url : String) : Except String ShortenResponse :=
  match r.incrR with
  | Except.error msg => Except.error msg
  | Except.ok counter =>
    let slug := encode_base62 (counter : Int)
    match r.setR (slugKey slug) original_url with
    | Except.error msg => Except.error msg
    | Except.ok _ =>
      match r.setR (urlKey original_url) slug with
      | Except.error msg => Except.error msg
      | Except.ok _ => Except.ok ⟨"/" ++ slug, slug, original_url⟩

/-- `shorten_url` with fallible store calls (no local recovery anywhere). -/
def shorten_urlF (r : RedisF) (original_url : String) : Except String ShortenResponse :=
  match r.getR (urlKey original_url) with
  | Except.error msg => Except.error msg
  | Except.ok existing =>
    match existing with
    | some existing_slug =>
      if existing_slug = "" then mintNewF r original_url
      else Except.ok ⟨"/" ++ existing_slug, existing_slug, original_url⟩
    | none => mintNewF r original_url

/-! ### Codec lemmas -/

theorem encodeLoopF_zero (fuel : Nat) : encodeLoopF fuel 0 = [] := by
  cases fuel <;> simp [encodeLoopF]

theorem encodeLoopF_congr (fuel : Nat) : ∀ fuel' num, num ≤ fuel → num ≤ fuel' →
    encodeLoopF fuel num = encodeLoopF fuel' num := by
  induction fuel with
  | zero =>
    intro fuel' num h h'
    have h0 : num = 0 := Nat.le_zero.mp h
    subst h0
    rw [encodeLoopF_zero, encodeLoopF_zero]
  | succ f ih =>
    intro fuel' num h h'
    rcases Nat.eq_zero_or_pos num with h0 | hpos
    · subst h0
      rw [encodeLoopF_zero, encodeLoopF_zero]
    · have hne : num ≠ 0 := by omega
      obtain ⟨f', rfl⟩ : ∃ f'', fuel' = f'' + 1 := ⟨fuel' - 1, by omega⟩
      have hdl : num / 62 < num := Nat.div_lt_self hpos (by norm_num)
      simp only [encodeLoopF, if_neg hne]
      exact congrArg (List.cons (base62Char (num % 62)))
        (ih f' (num / 62) (by omega) (by omega))

theorem encodeLoop_eq (num : Nat) (h : num ≠ 0) :
    encodeLoop num = base62Char (num % 62) :: encodeLoop (num / 62) := by
  obtain ⟨k, rfl⟩ : ∃ k, num = k + 1 := ⟨num - 1, by omega⟩
  have hdl : (k + 1) / 62 < k + 1 := Nat.div_lt_self (by omega) (by norm_num)
  show encodeLoopF (k + 1) (k + 1) = _
  simp only [encodeLoopF, if_neg h]
  exact congrArg (List.cons (base62Char ((k + 1) % 62)))
    (encodeLoopF_congr k ((k + 1) / 62) ((k + 1) / 62) (by omega) (by omega))

theorem encodeLoop_eq_nil_iff (n : Nat) : encodeLoop n = [] ↔ n = 0 := by
  constructor
  · intro h
    by_contra hne
    rw [encodeLoop_eq n hne] at h
    exact List.cons_ne_nil _ _ h
  · intro h
    subst h
    rfl

theorem charVal_base62Char : ∀ i, i < 62 → charVal (base62Char i) = some i := by
  decide

theorem decodeAux_append_ok : ∀ (l1 l2 : List Char) (acc v : Nat),
    decodeAux l1 acc = Except.ok v → decodeAux (l1 ++ l2) acc = decodeAux l2 v := by
  intro l1
  induction l1 with
  | nil =>
    intro l2 acc v h
    simp only [decodeAux] at h
    cases h
    rfl
  | cons c cs ih =>
    intro l2 acc v h
    cases hc : charVal c with
    | none =>
      simp only [decodeAux, hc] at h
      exact Except.noConfusion h
    | some d =>
      simp only [decodeAux, hc] at h ⊢
      exact ih _ _ _ h

theorem decodeAux_single (c : Char) (d acc : Nat) (h : charVal c = some d) :
    decodeAux [c] acc = Except.ok (acc * 62 + d) := by
  simp only [decodeAux, h]

theorem decodeAux_encodeLoop (n : Nat) : ∀ acc : Nat,
    decodeAux (encodeLoop n).reverse acc =
      Except.ok (acc * 62 ^ (encodeLoop n).length + n) := by
  induction n using Nat.strong_induction_on with
  | _ n ih =>
    intro acc
    rcases Nat.eq_zero_or_pos n with h0 | hpos
    · subst h0
      simp [encodeLoop, encodeLoopF, decodeAux]
    · have hne : n ≠ 0 := by omega
      have hdl : n / 62 < n := Nat.div_lt_self hpos (by norm_num)
      rw [encodeLoop_eq n hne, List.reverse_cons, List.length_cons]
      rw [decodeAux_append_ok _ _ _ _ (ih (n / 62) hdl acc)]
      rw [decodeAux_single _ _ _ (charVal_base62Char (n % 62) (Nat.mod_lt n (by norm_num)))]
      have hx : ∀ A : Nat, (A + n / 62) * 62 + n % 62 = A * 62 + n := fun A => by omega
      rw [hx, pow_succ, ← Nat.mul_assoc]

theorem decode_encode (n : Nat) : decode (encode_base62 (n : Int)) = Except.ok n := by
  rcases Nat.eq_zero_or_pos n with h0 | hpos
  · subst h0
    decide
  · have hne : (n : Int) ≠ 0 := by
      simpa using Nat.pos_iff_ne_zero.mp hpos
    unfold encode_base62
    rw [if_neg hne]
    have htn : ((n : Int)).toNat = n := by simp
    rw [htn]
    unfold decode
    have hd : (String.mk (encodeLoop n).reverse).data = (encodeLoop n).reverse := rfl
    rw [hd]
    have hnil : encodeLoop n ≠ [] := by
      rw [Ne, encodeLoop_eq_nil_iff]
      omega
    have hcond : ((encodeLoop n).reverse).isEmpty = false := by
      simp [List.isEmpty_iff, hnil]
    rw [hcond]
    simp only [Bool.false_eq_true, if_false]
    rw [decodeAux_encodeLoop n 0]
    simp

theorem encode_inj (m n : Nat) (h : encode_base62 (m : Int) = encode_base62 (n : Int)) :
    m = n := by
  have h1 := decode_encode m
  have h2 := decode_encode n
  rw [h] at h1
  exact Except.ok.inj (h1.symm.trans h2)

theorem encode_ne_empty (n : Nat) : encode_base62 (n : Int) ≠ "" := by
  rcases Nat.eq_zero_or_pos n with h0 | hpos
  · subst h0
    decide
  · have hne : (n : Int) ≠ 0 := by
      simpa using Nat.pos_iff_ne_zero.mp hpos
    unfold encode_base62
    rw [if_neg hne]
    intro hcontra
    have hdata : (encodeLoop ((n : Int)).toNat).reverse = [] := congrArg String.data hcontra
    rw [List.reverse_eq_nil_iff] at hdata
    have : ((n : Int)).toNat = 0 := (encodeLoop_eq_nil_iff _).mp hdata
    omega

/-! ### Length and ordering lemmas for the codec -/

theorem encodeLoop_length_mono (m : Nat) : ∀ n, m ≤ n →
    (encodeLoop m).length ≤ (encodeLoop n).length := by
  induction m using Nat.strong_induction_on with
  | _ m ih =>
    intro n hmn
    rcases Nat.eq_zero_or_pos m with h0 | hpos
    · subst h0
      simp [encodeLoop, encodeLoopF]
    · have hm : m ≠ 0 := by omega
      have hn : n ≠ 0 := by omega
      rw [encodeLoop_eq m hm, encodeLoop_eq n hn]
      simp only [List.length_cons, Nat.add_le_add_iff_right]
      exact ih (m / 62) (Nat.div_lt_self hpos (by norm_num))
        (n / 62) (Nat.div_le_div_right hmn)

theorem encodeLoop_small (n : Nat) (h1 : n ≠ 0) (h2 : n < 62) :
    encodeLoop n = [base62Char n] := by
  rw [encodeLoop_eq n h1, Nat.mod_eq_of_lt h2, Nat.div_eq_of_lt h2]
  rfl

theorem encodeLoop_length_le_one (n : Nat) (h : (encodeLoop n).length ≤ 1) : n < 62 := by
  by_contra h62
  have hn : n ≠ 0 := by omega
  rw [encodeLoop_eq n hn] at h
  simp only [List.length_cons] at h
  have hlen0 : (encodeLoop (n / 62)).length = 0 := by omega
  have : n / 62 = 0 := (encodeLoop_eq_nil_iff _).mp (List.length_eq_zero.mp hlen0)
  omega

theorem base62Char_strictMono :
    ∀ i < 62, ∀ j < 62, i < j → base62Char i < base62Char j := by
  decide

theorem base62Char_ne_head : ∀ d < 62, d ≠ 0 → base62Char d ≠ '0' := by
  decide

theorem lt_append_single_left (a : List Char) : ∀ (b : List Char) (x y : Char),
    a.length = b.length → List.lt a b → List.lt (a ++ [x]) (b ++ [y]) := by
  induction a with
  | nil =>
    intro b x y hlen hlt
    have hb : b = [] := List.length_eq_zero.mp hlen.symm
    subst hb
    cases hlt
  | cons c cs ih =>
    intro b x y hlen hlt
    obtain ⟨d, ds, rfl⟩ : ∃ d ds, b = d :: ds := by
      cases b with
      | nil => simp at hlen
      | cons d ds => exact ⟨d, ds, rfl⟩
    cases hlt with
    | head _ _ hcd => exact List.lt.head _ _ hcd
    | tail h1 h2 h3 =>
      exact List.lt.tail h1 h2 (ih ds x y (by simpa using hlen) h3)

theorem lt_append_single_self (a : List Char) (x y : Char) (h : x < y) :
    List.lt (a ++ [x]) (a ++ [y]) := by
  induction a with
  | nil => exact List.lt.head _ _ h
  | cons c cs ih => exact List.lt.tail (lt_irrefl c) (lt_irrefl c) ih

theorem encodeLoop_rev_lt (n : Nat) : ∀ m, m < n →
    (encodeLoop m).length = (encodeLoop n).length →
    List.lt (encodeLoop m).reverse (encodeLoop n).reverse := by
  induction n using Nat.strong_induction_on with
  | _ n ih =>
    intro m hmn hlen
    have hn : n ≠ 0 := by omega
    have hm : m ≠ 0 := by
      intro h0
      subst h0
      rw [encodeLoop_eq n hn] at hlen
      simp [encodeLoop, encodeLoopF] at hlen
    rw [encodeLoop_eq m hm, encodeLoop_eq n hn] at hlen ⊢
    simp only [List.length_cons, Nat.add_right_cancel_iff] at hlen
    rw [List.reverse_cons, List.reverse_cons]
    have hq : m / 62 ≤ n / 62 := Nat.div_le_div_right (le_of_lt hmn)
    rcases lt_or_eq_of_le hq with hlt | heq
    · refine lt_append_single_left _ _ _ _ (by simpa using hlen) ?_
      exact ih (n / 62) (Nat.div_lt_self (by omega) (by norm_num)) (m / 62) hlt hlen
    · rw [heq]
      apply lt_append_single_self
      have hmod : m % 62 < n % 62 := by omega
      exact base62Char_strictMono (m % 62) (Nat.mod_lt _ (by norm_num))
        (n % 62) (Nat.mod_lt _ (by norm_num)) hmod

theorem encodeLoop_rev_head (n : Nat) (h : n ≠ 0) :
    ∃ d, d < 62 ∧ d ≠ 0 ∧ ((encodeLoop n).reverse).head? = some (base62Char d) := by
  induction n using Nat.strong_induction_on with
  | _ n ih =>
    rcases Nat.lt_or_ge n 62 with hsmall | hbig
    · refine ⟨n, hsmall, h, ?_⟩
      rw [encodeLoop_small n h hsmall]
      rfl
    · have hdiv : n / 62 ≠ 0 := by
        have : 1 ≤ n / 62 := (Nat.one_le_div_iff (by norm_num)).mpr hbig
        omega
      obtain ⟨d, hd1, hd2, hd3⟩ :=
        ih (n / 62) (Nat.div_lt_self (by omega) (by norm_num)) hdiv
      refine ⟨d, hd1, hd2, ?_⟩
      rw [encodeLoop_eq n h, List.reverse_cons, List.head?_append, hd3]
      rfl

/-! ### Key namespacing lemmas -/

theorem slugKey_ne_urlKey (s u : String) : slugKey s ≠ urlKey u := by
  intro h
  have hd : "shortify:slug:".data ++ s.data = "shortify:url:".data ++ u.data := by
    simpa [slugKey, urlKey, String.data_append] using congrArg String.data h
  have h10 := congrArg (List.take 10) hd
  rw [List.take_append_of_le_length (by decide),
    List.take_append_of_le_length (by decide)] at h10
  exact absurd h10 (by decide)

theorem slugKey_ne_counterKey (s : String) : slugKey s ≠ counterKey := by
  intro h
  have hd : "shortify:slug:".data ++ s.data = counterKey.data := by
    simpa [slugKey, String.data_append] using congrArg String.data h
  have h10 := congrArg (List.take 10) hd
  rw [List.take_append_of_le_length (by decide)] at h10
  exact absurd h10 (by decide)

theorem urlKey_ne_counterKey (u : String) : urlKey u ≠ counterKey := by
  intro h
  have hd : "shortify:url:".data ++ u.data = counterKey.data := by
    simpa [urlKey, String.data_append] using congrArg String.data h
  have h10 := congrArg (List.take 10) hd
  rw [List.take_append_of_le_length (by decide)] at h10
  exact absurd h10 (by decide)

theorem urlKey_inj (u1 u2 : String) (h : urlKey u1 = urlKey u2) : u1 = u2 := by
  have hd := congrArg String.data h
  simp only [urlKey, String.data_append] at hd
  exact String.ext (List.append_cancel_left hd)

theorem slugKey_inj (s1 s2 : String) (h : slugKey s1 = slugKey s2) : s1 = s2 := by
  have hd := congrArg String.data h
  simp only [slugKey, String.data_append] at hd
  exact String.ext (List.append_cancel_left hd)

theorem leads_append (p rest : List Char) : leads p (p ++ rest) = true := by
  induction p with
  | nil => rfl
  | cons c cs ih => simp [leads, ih]

/-! ### Store lemmas -/

theorem kvGet_cons_eq (k v : String) (rest : List (String × String)) :
    kvGet ((k, v) :: rest) k = some v := by
  simp [kvGet]

theorem kvGet_cons_ne (k' v k : String) (rest : List (String × String)) (h : k' ≠ k) :
    kvGet ((k', v) :: rest) k = kvGet rest k := by
  simp [kvGet, h]

theorem shorten_hit (st : Store) (u s : String)
    (h1 : kvGet st.kv (urlKey u) = some s) (h2 : s ≠ "") :
    shorten_url st u = (⟨"/" ++ s, s, u⟩, st) := by
  unfold shorten_url
  rw [h1]
  simp [h2]

theorem shorten_miss_none (st : Store) (u : String)
    (h : kvGet st.kv (urlKey u) = none) : shorten_url st u = mintNew st u := by
  unfold shorten_url
  rw [h]

theorem shorten_miss_empty (st : Store) (u : String)
    (h : kvGet st.kv (urlKey u) = some "") : shorten_url st u = mintNew st u := by
  unfold shorten_url
  rw [h]
  simp

theorem mintNew_state (st : Store) (u : String) :
    (mintNew st u).2 = ⟨st.counter + 1,
      (urlKey u, encode_base62 ((st.counter + 1 : Nat) : Int)) ::
      (slugKey (encode_base62 ((st.counter + 1 : Nat) : Int)), u) :: st.kv⟩ := rfl

theorem mintNew_resp (st : Store) (u : String) :
    (mintNew st u).1 = ⟨"/" ++ encode_base62 ((st.counter + 1 : Nat) : Int),
      encode_base62 ((st.counter + 1 : Nat) : Int), u⟩ := rfl

theorem shorten_after_mint (st : Store) (u : String) :
    shorten_url (mintNew st u).2 u = ((mintNew st u).1, (mintNew st u).2) := by
  have hslug : encode_base62 ((st.counter + 1 : Nat) : Int) ≠ "" := encode_ne_empty _
  have hget : kvGet (mintNew st u).2.kv (urlKey u) =
      some (encode_base62 ((st.counter + 1 : Nat) : Int)) := by
    rw [mintNew_state]
    exact kvGet_cons_eq _ _ _
  rw [shorten_hit (mintNew st u).2 u _ hget hslug, mintNew_resp]

theorem encode_length (n : Nat) :
    (encode_base62 (n : Int)).length = if n = 0 then 1 else (encodeLoop n).length := by
  by_cases h : n = 0
  · subst h
    decide
  · have hne : (n : Int) ≠ 0 := by exact_mod_cast h
    rw [if_neg h]
    unfold encode_base62
    rw [if_neg hne]
    have ht : ((n : Int)).toNat = n := by simp
    rw [ht]
    exact List.length_reverse _

theorem encode_data_pos (n : Nat) (h : n ≠ 0) :
    (encode_base62 (n : Int)).data = (encodeLoop n).reverse := by
  have hne : (n : Int) ≠ 0 := by exact_mod_cast h
  unfold encode_base62
  rw [if_neg hne]
  have ht : ((n : Int)).toNat = n := by simp
  rw [ht]

/-! ### Claim theorems -/

/-- C1: the slug codec's decode is the exact inverse of encode: for every
non-negative integer `n` (hence in particular every `n` in `[0, 10_000_000]`),
`decode (encode n) = n`. -/
theorem claim_base62_roundtrip : ∀ n : Nat, decode (encode_base62 (n : Int)) = Except.ok n :=
  fun n => decode_encode n

/-- C2, counterexample: the test vectors as claimed fail on the code, because
`encode_base62 1000` is `"G8"` (the alphabet places index 16 at uppercase `G`),
not `"g8"` as the docstring and spec state. -/
theorem claim_encode_vectors_counterexample :
    ¬ (encode_base62 0 = "0" ∧ encode_base62 61 = "z" ∧
       encode_base62 62 = "10" ∧ encode_base62 1000 = "g8") := by
  decide

/-- C2, amended: the concrete vectors satisfied by the code are
`encode 0 = "0"`, `encode 61 = "z"`, `encode 62 = "10"`, `encode 1000 = "G8"`. -/
theorem claim_encode_vectors :
    encode_base62 0 = "0" ∧ encode_base62 61 = "z" ∧
    encode_base62 62 = "10" ∧ encode_base62 1000 = "G8" := by
  decide

/-- C3: a shortening request for a URL whose (nonempty) slug is already in the
reverse mapping returns the stored slug and leaves the store untouched (no
counter increment, no writes); and shortening the same URL twice sequentially
returns the identical response the second time while leaving the state of the
first call unchanged. Slugs stored by the program are nonempty since counters
are positive. -/
theorem claim_shorten_dedup :
    (∀ (st : Store) (u s : String), kvGet st.kv (urlKey u) = some s → s ≠ "" →
      shorten_url st u = (⟨"/" ++ s, s, u⟩, st)) ∧
    (∀ (st : Store) (u : String),
      shorten_url (shorten_url st u).2 u = ((shorten_url st u).1, (shorten_url st u).2)) := by
  constructor
  · intro st u s h1 h2
    exact shorten_hit st u s h1 h2
  · intro st u
    cases hget : kvGet st.kv (urlKey u) with
    | some s =>
      by_cases hs : s = ""
      · subst hs
        rw [shorten_miss_empty st u hget]
        exact shorten_after_mint st u
      · rw [shorten_hit st u s hget hs]
        exact shorten_hit st u s hget hs
    | none =>
      rw [shorten_miss_none st u hget]
      exact shorten_after_mint st u

/-- C3 witness: a store holding slug `"b"` for `"http://a.com"` responds with
`"b"` and is left unchanged. -/
theorem claim_shorten_dedup_witness :
    kvGet (Store.mk 5 [(urlKey "http://a.com", "b")]).kv (urlKey "http://a.com") =
      some "b" ∧
    ("b" : String) ≠ "" ∧
    shorten_url (Store.mk 5 [(urlKey "http://a.com", "b")]) "http://a.com" =
      (⟨"/" ++ "b", "b", "http://a.com"⟩, Store.mk 5 [(urlKey "http://a.com", "b")]) :=
  ⟨by decide, by decide, claim_shorten_dedup.1 _ _ _ (by decide) (by decide)⟩

/-- C4: an input rejected by the http/https well-formedness validation yields
the client error `InvalidInput`, and the store state is returned untouched:
no INCR, GET, or SET happens before or after the rejection. -/
theorem claim_invalid_input_rejected (st : Store) (u : String)
    (h : is_wellformed_http_url u = false) :
    handle_shorten st u = (Except.error "InvalidInput", st) := by
  simp [handle_shorten, h]

/-- C4 witness: a non-http(s) input is rejected with no store interaction. -/
theorem claim_invalid_input_rejected_witness :
    is_wellformed_http_url "ftp://example.com" = false ∧
    handle_shorten (Store.mk 0 []) "ftp://example.com" =
      (Except.error "InvalidInput", Store.mk 0 []) :=
  ⟨by decide, claim_invalid_input_rejected (Store.mk 0 []) "ftp://example.com" (by decide)⟩

/-- C5: encode output length is monotone in the input; `encode 61` has length
1 and `encode 62` has length 2; and two outputs of equal length compare
lexicographically exactly as their inputs compare numerically. -/
theorem claim_encode_monotone :
    (∀ m n : Nat, m < n →
      (encode_base62 (m : Int)).length ≤ (encode_base62 (n : Int)).length) ∧
    (encode_base62 61).length = 1 ∧ (encode_base62 62).length = 2 ∧
    (∀ m n : Nat, m < n →
      (encode_base62 (m : Int)).length = (encode_base62 (n : Int)).length →
      encode_base62 (m : Int) < encode_base62 (n : Int)) := by
  refine ⟨?_, by decide, by decide, ?_⟩
  · intro m n hmn
    rw [encode_length, encode_length]
    by_cases hm : m = 0
    · subst hm
      rw [if_pos rfl, if_neg (by omega)]
      rw [encodeLoop_eq n (by omega)]
      simp
    · rw [if_neg hm, if_neg (by omega)]
      exact encodeLoop_length_mono m n (le_of_lt hmn)
  · intro m n hmn hlen
    have hn : n ≠ 0 := by omega
    rw [encode_length, encode_length, if_neg hn] at hlen
    refine String.lt_iff_toList_lt.mpr ?_
    show (encode_base62 (m : Int)).data < (encode_base62 (n : Int)).data
    by_cases hm : m = 0
    · subst hm
      rw [if_pos rfl] at hlen
      have hsmall : n < 62 := encodeLoop_length_le_one n (by omega)
      have h1 : (encode_base62 ((0 : Nat) : Int)).data = [base62Char 0] := by decide
      have h2 : (encode_base62 ((n : Nat) : Int)).data = [base62Char n] := by
        rw [encode_data_pos n hn, encodeLoop_small n hn hsmall]
        rfl
      rw [h1, h2]
      exact (List.lt_iff_lex_lt _ _).mp
        (List.lt.head _ _ (base62Char_strictMono 0 (by norm_num) n hsmall (by omega)))
    · rw [if_neg hm] at hlen
      rw [encode_data_pos m hm, encode_data_pos n hn]
      exact (List.lt_iff_lex_lt _ _).mp (encodeLoop_rev_lt n m hmn hlen)

/-- C5 witness: length monotonicity at `3 < 64` and same-length lexicographic
agreement at `10 < 20`. -/
theorem claim_encode_monotone_witness :
    ((3 : Nat) < 64 ∧
      (encode_base62 ((3 : Nat) : Int)).length ≤ (encode_base62 ((64 : Nat) : Int)).length) ∧
    ((10 : Nat) < 20 ∧
      (encode_base62 ((10 : Nat) : Int)).length = (encode_base62 ((20 : Nat) : Int)).length ∧
      encode_base62 ((10 : Nat) : Int) < encode_base62 ((20 : Nat) : Int)) :=
  ⟨⟨by decide, claim_encode_monotone.1 3 64 (by decide)⟩,
   ⟨by decide, by decide, claim_encode_monotone.2.2.2 10 20 (by decide) (by decide)⟩⟩

/-- C6: `encode 0` is exactly the first alphabet character (a one-character
string, not empty), and an output starting with the first alphabet character
is that single character, i.e. no leading zero-digits. -/
theorem claim_encode_no_leading_zero :
    (encode_base62 0 = String.singleton (base62Char 0) ∧ encode_base62 0 ≠ "") ∧
    (∀ n : Nat, ((encode_base62 (n : Int)).data).head? = some (base62Char 0) →
      encode_base62 (n : Int) = String.singleton (base62Char 0)) := by
  refine ⟨⟨rfl, by decide⟩, ?_⟩
  intro n hhead
  by_cases hn : n = 0
  · subst hn
    decide
  · exfalso
    obtain ⟨d, hd1, hd2, hd3⟩ := encodeLoop_rev_head n hn
    rw [encode_data_pos n hn, hd3] at hhead
    have heq : base62Char d = base62Char 0 := Option.some.inj hhead
    exact base62Char_ne_head d hd1 hd2 (heq.trans (by decide))

/-- C6 witness: at `n = 0` the output starts with the first alphabet character
and is exactly that one character. -/
theorem claim_encode_no_leading_zero_witness :
    ((encode_base62 ((0 : Nat) : Int)).data).head? = some (base62Char 0) ∧
    encode_base62 ((0 : Nat) : Int) = String.singleton (base62Char 0) :=
  ⟨by decide, claim_encode_no_leading_zero.2 0 (by decide)⟩

/-- C7: shortening two distinct URLs, neither present in the reverse mapping,
yields two distinct slugs, and afterwards the forward mapping resolves each
slug to its respective original URL unchanged. -/
theorem claim_distinct_urls (st : Store) (u1 u2 : String) (hne : u1 ≠ u2)
    (h1 : kvGet st.kv (urlKey u1) = none) (h2 : kvGet st.kv (urlKey u2) = none) :
    ((shorten_url st u1).1).slug ≠ ((shorten_url (shorten_url st u1).2 u2).1).slug ∧
    kvGet ((shorten_url (shorten_url st u1).2 u2).2).kv
      (slugKey ((shorten_url st u1).1).slug) = some u1 ∧
    kvGet ((shorten_url (shorten_url st u1).2 u2).2).kv
      (slugKey ((shorten_url (shorten_url st u1).2 u2).1).slug) = some u2 := by
  rw [shorten_miss_none st u1 h1]
  have hg2 : kvGet (mintNew st u1).2.kv (urlKey u2) = none := by
    rw [mintNew_state]
    rw [kvGet_cons_ne _ _ _ _ (fun h => hne (urlKey_inj u1 u2 h))]
    rw [kvGet_cons_ne _ _ _ _ (slugKey_ne_urlKey _ u2)]
    exact h2
  rw [shorten_miss_none _ u2 hg2]
  have hslugne : encode_base62 ((st.counter + 1 : Nat) : Int) ≠
      encode_base62 ((st.counter + 1 + 1 : Nat) : Int) := by
    intro h
    have := encode_inj _ _ h
    omega
  have hr1 : ((mintNew st u1).1).slug = encode_base62 ((st.counter + 1 : Nat) : Int) := rfl
  have hr2 : ((mintNew (mintNew st u1).2 u2).1).slug =
      encode_base62 ((st.counter + 1 + 1 : Nat) : Int) := rfl
  have hkv : ((mintNew (mintNew st u1).2 u2).2).kv =
      (urlKey u2, encode_base62 ((st.counter + 1 + 1 : Nat) : Int)) ::
      (slugKey (encode_base62 ((st.counter + 1 + 1 : Nat) : Int)), u2) ::
      (urlKey u1, encode_base62 ((st.counter + 1 : Nat) : Int)) ::
      (slugKey (encode_base62 ((st.counter + 1 : Nat) : Int)), u1) :: st.kv := rfl
  refine ⟨?_, ?_, ?_⟩
  · rw [hr1, hr2]
    exact hslugne
  · rw [hr1, hkv]
    rw [kvGet_cons_ne _ _ _ _ (Ne.symm (slugKey_ne_urlKey _ u2))]
    rw [kvGet_cons_ne _ _ _ _ (fun h => hslugne (slugKey_inj _ _ h).symm)]
    rw [kvGet_cons_ne _ _ _ _ (Ne.symm (slugKey_ne_urlKey _ u1))]
    exact kvGet_cons_eq _ _ _
  · rw [hr2, hkv]
    rw [kvGet_cons_ne _ _ _ _ (Ne.symm (slugKey_ne_urlKey _ u2))]
    exact kvGet_cons_eq _ _ _

/-- C7 witness: on an empty store, `"http://a"` then `"http://b"` receive
distinct slugs and both forward mappings resolve correctly. -/
theorem claim_distinct_urls_witness :
    ("http://a" : String) ≠ "http://b" ∧
    kvGet (Store.mk 0 []).kv (urlKey "http://a") = none ∧
    kvGet (Store.mk 0 []).kv (urlKey "http://b") = none ∧
    (((shorten_url (Store.mk 0 []) "http://a").1).slug ≠
      ((shorten_url (shorten_url (Store.mk 0 []) "http://a").2 "http://b").1).slug ∧
    kvGet ((shorten_url (shorten_url (Store.mk 0 []) "http://a").2 "http://b").2).kv
      (slugKey ((shorten_url (Store.mk 0 []) "http://a").1).slug) = some "http://a" ∧
    kvGet ((shorten_url (shorten_url (Store.mk 0 []) "http://a").2 "http://b").2).kv
      (slugKey ((shorten_url (shorten_url (Store.mk 0 []) "http://a").2 "http://b").1).slug) =
      some "http://b") :=
  ⟨by decide, by decide, by decide,
   claim_distinct_urls (Store.mk 0 []) "http://a" "http://b"
     (by decide) (by decide) (by decide)⟩

/-- C8: every store-layer error propagates unchanged to the request boundary:
whichever of GET, INCR, or the two SETs fails, `shorten_urlF` returns exactly
that error and aborts, with no recovery or default substitution. -/
theorem claim_store_errors_propagate :
    (∀ (r : RedisF) (u msg : String), r.getR (urlKey u) = Except.error msg →
      shorten_urlF r u = Except.error msg) ∧
    (∀ (r : RedisF) (u msg : String), r.getR (urlKey u) = Except.ok none →
      r.incrR = Except.error msg → shorten_urlF r u = Except.error msg) ∧
    (∀ (r : RedisF) (u msg : String) (c : Nat), r.getR (urlKey u) = Except.ok none →
      r.incrR = Except.ok c →
      r.setR (slugKey (encode_base62 (c : Int))) u = Except.error msg →
      shorten_urlF r u = Except.error msg) ∧
    (∀ (r : RedisF) (u msg : String) (c : Nat), r.getR (urlKey u) = Except.ok none →
      r.incrR = Except.ok c →
      r.setR (slugKey (encode_base62 (c : Int))) u = Except.ok () →
      r.setR (urlKey u) (encode_base62 (c : Int)) = Except.error msg →
      shorten_urlF r u = Except.error msg) := by
  refine ⟨?_, ?_, ?_, ?_⟩
  · intro r u msg hget
    simp only [shorten_urlF, hget]
  · intro r u msg hget hincr
    simp only [shorten_urlF, hget, mintNewF, hincr]
  · intro r u msg c hget hincr hset1
    simp only [shorten_urlF, hget, mintNewF, hincr, hset1]
  · intro r u msg c hget hincr hset1 hset2
    simp only [shorten_urlF, hget, mintNewF, hincr, hset1, hset2]

/-- C8 witness: a client whose GET fails with `"boom"` makes the whole request
fail with exactly `"boom"`. -/
theorem claim_store_errors_propagate_witness :
    (RedisF.mk (Except.ok 1) (fun _ => Except.error "boom")
      (fun _ _ => Except.ok ())).getR (urlKey "http://a") = Except.error "boom" ∧
    shorten_urlF (RedisF.mk (Except.ok 1) (fun _ => Except.error "boom")
      (fun _ _ => Except.ok ())) "http://a" = Except.error "boom" :=
  ⟨rfl, claim_store_errors_propagate.1 _ "http://a" "boom" rfl⟩

/-- C9: every key the program uses sits under the common service namespace
`shortify:` — forward mapping under `shortify:slug:<slug>`, reverse mapping
under `shortify:url:<url>`, counter under the fixed `shortify:counter` — and
the three key families never collide. -/
theorem claim_keys_namespaced : ∀ s u : String,
    leads "shortify:".data (slugKey s).data = true ∧
    leads "shortify:".data (urlKey u).data = true ∧
    leads "shortify:".data counterKey.data = true ∧
    slugKey s ≠ urlKey u ∧ slugKey s ≠ counterKey ∧ urlKey u ≠ counterKey := by
  intro s u
  refine ⟨?_, ?_, by decide, slugKey_ne_urlKey s u,
    slugKey_ne_counterKey s, urlKey_ne_counterKey u⟩
  · have h : (slugKey s).data = "shortify:".data ++ ("slug:".data ++ s.data) := by
      unfold slugKey
      rw [String.data_append,
        show ("shortify:slug:").data = "shortify:".data ++ "slug:".data from by decide,
        List.append_assoc]
    rw [h]
    exact leads_append _ _
  · have h : (urlKey u).data = "shortify:".data ++ ("url:".data ++ u.data) := by
      unfold urlKey
      rw [String.data_append,
        show ("shortify:url:").data = "shortify:".data ++ "url:".data from by decide,
        List.append_assoc]
    rw [h]
    exact leads_append _ _

/-- C10: for every negative integer, `encode_base62` returns the empty
string: the zero branch is not taken and the loop body never runs, so a
caller passing a negative value silently receives an empty slug. -/
theorem claim_encode_negative (n : Int) (h : n < 0) : encode_base62 n = "" := by
  unfold encode_base62
  rw [if_neg (by omega), Int.toNat_of_nonpos (le_of_lt h)]
  rfl

/-- C10 witness: `encode_base62 (-5) = ""`. -/
theorem claim_encode_negative_witness :
    ((-5 : Int) < 0) ∧ encode_base62 (-5) = "" :=
  ⟨by decide, claim_encode_negative (-5) (by decide)⟩
